import Mathlib

set_option maxHeartbeats 1000000

/-!
Verification of the continuum-normalization subsystem of
`Code/Version1.3/apogeedata.py` (functions `get_contmask`, `get_pixmask`,
`continuum_normalize_Chebyshev`, and the `ApogeeDF` segment configuration).

Modelling choices:
* numpy float64 values are modelled by the type `F`: an exact rational,
  a signed infinity, or NaN.  Arithmetic follows IEEE-754 semantics on the
  special values and is exact on rationals (rounding is not modelled; none
  of the verified properties depends on rounding).
* 1-d numpy arrays are `List F`; 2-d arrays (stars × pixels) are
  `List (List F)`; boolean arrays are `List Bool`.
* Python slice reads `a[start:stop]` become `sliceL`, and slice writes
  `a[start:stop] = v` become `writeRange` (both with Python's clamping
  behaviour for out-of-range bounds).
* `np.polynomial.chebyshev.Chebyshev.fit` followed by evaluation at the
  segment wavelengths is an external numpy library routine; it is modelled
  as an explicit function parameter `fit : FitFn` taking the sliced
  wavelengths, fluxes, weights and the degree and returning the evaluated
  continuum over the slice.  Every theorem about the surrounding code is
  stated for an arbitrary such `fit` (constrained only to return one value
  per input wavelength, which numpy guarantees), because the verified
  properties concern the array plumbing around the fit, not the fitted
  values themselves.
* A Python function that can raise is modelled with `Except String`;
  `continuum_normalize_Chebyshev` additionally returns `Option _` because
  for an empty star ensemble its `for` loop body never runs and the
  function falls through, returning Python's `None`.
-/

/-- IEEE-style extended value: a finite rational, a signed infinity
(`F.inf true` is `+∞`, `F.inf false` is `-∞`), or NaN. -/
inductive F : Type where
  | fin : ℚ → F
  | inf : Bool → F
  | nan : F
deriving DecidableEq, Repr

namespace F

/-- `np.isfinite`. -/
def isFinite : F → Bool
  | fin _ => true
  | _ => false

/-- NaN test. -/
def isNan : F → Bool
  | nan => true
  | _ => false

/-- IEEE negation. -/
def neg : F → F
  | fin q => fin (-q)
  | inf s => inf (!s)
  | nan => nan

/-- IEEE addition (exact on finite values). -/
def add : F → F → F
  | fin a, fin b => fin (a + b)
  | fin _, inf s => inf s
  | inf s, fin _ => inf s
  | inf s, inf t => if s = t then inf s else nan
  | _, _ => nan

/-- IEEE subtraction. -/
def sub (a b : F) : F := a.add b.neg

/-- IEEE multiplication (`0 * ∞ = NaN`). -/
def mul : F → F → F
  | fin a, fin b => fin (a * b)
  | fin a, inf s => if a = 0 then nan else inf (s == decide (0 < a))
  | inf s, fin b => if b = 0 then nan else inf (s == decide (0 < b))
  | inf s, inf t => inf (s == t)
  | _, _ => nan

/-- IEEE division (`x / 0 = ±∞` for `x ≠ 0`, `0 / 0 = NaN`, `x / ±∞ = 0`;
the sign of a rational zero divisor is taken positive, as the program only
ever divides by values produced as fit evaluations or errors). -/
def div : F → F → F
  | fin a, fin b =>
    if b = 0 then (if a = 0 then nan else inf (decide (0 < a))) else fin (a / b)
  | fin _, inf _ => fin 0
  | inf s, fin b => if b = 0 then inf s else inf (s == decide (0 < b))
  | inf _, inf _ => nan
  | _, _ => nan

/-- IEEE absolute value. -/
def abs : F → F
  | fin q => fin |q|
  | inf _ => inf true
  | nan => nan

/-- IEEE `<=` (false whenever an operand is NaN). -/
def le : F → F → Bool
  | fin a, fin b => a ≤ b
  | fin _, inf s => s
  | inf s, fin _ => !s
  | inf s, inf t => !s || t
  | _, _ => false

/-- IEEE `<` (false whenever an operand is NaN). -/
def lt : F → F → Bool
  | fin a, fin b => a < b
  | fin _, inf s => s
  | inf s, fin _ => !s
  | inf s, inf t => !s && t
  | _, _ => false

/-- IEEE `==` (false whenever an operand is NaN). -/
def beq : F → F → Bool
  | fin a, fin b => a == b
  | inf s, inf t => s == t
  | _, _ => false

/-- The total order used by numpy's sort: `-∞ < finite < +∞ < NaN`
(NaN sorts last). -/
def sortKeyLe : F → F → Bool
  | nan, nan => true
  | nan, _ => false
  | _, nan => true
  | inf false, _ => true
  | _, inf false => false
  | inf true, inf true => true
  | fin _, inf true => true
  | inf true, fin _ => false
  | fin a, fin b => a ≤ b

end F

/-- `get_pixmask` from apogeedata.py (lines 49-72):
`bad_flux = (~np.isfinite(fluxes)) | (fluxes == 0)`,
`bad_err = (~np.isfinite(flux_errs)) | (flux_errs <= 0)`,
returns `bad_err | bad_flux` elementwise. -/
def get_pixmask (fluxes flux_errs : List F) : List Bool :=
  List.zipWith
    (fun f e =>
      (((!e.isFinite) || e.le (F.fin 0)) || ((!f.isFinite) || f.beq (F.fin 0))))
    fluxes flux_errs

/-- The per-pixel bad-pixel condition, stated semantically. -/
theorem pixmask_pointwise (f e : F) :
    ((((!e.isFinite) || e.le (F.fin 0)) || ((!f.isFinite) || f.beq (F.fin 0))) = true) ↔
      (f.isFinite = false ∨ f = F.fin 0 ∨ e.isFinite = false ∨ ∃ q, e = F.fin q ∧ q ≤ 0) := by
  cases f with
  | fin a =>
    cases e with
    | fin b =>
      constructor
      · intro h
        simp only [F.isFinite, F.le, F.beq, Bool.not_true, Bool.false_or, Bool.or_eq_true,
          decide_eq_true_eq, beq_iff_eq] at h
        rcases h with hb | ha
        · exact Or.inr (Or.inr (Or.inr ⟨b, rfl, hb⟩))
        · exact Or.inr (Or.inl (by rw [ha]))
      · intro h
        rcases h with hfin | hzero | hefin | ⟨q, hq, hq0⟩
        · simp [F.isFinite] at hfin
        · obtain rfl : a = 0 := by injection hzero
          simp [F.isFinite, F.le, F.beq]
        · simp [F.isFinite] at hefin
        · obtain rfl : b = q := by injection hq
          simp [F.isFinite, F.le, F.beq, hq0]
    | inf s => cases s <;> simp [F.isFinite, F.le, F.beq]
    | nan => simp [F.isFinite, F.le, F.beq]
  | inf s =>
    cases e with
    | fin b => simp [F.isFinite, F.le, F.beq]
    | inf t => cases t <;> simp [F.isFinite, F.le, F.beq]
    | nan => simp [F.isFinite, F.le, F.beq]
  | nan =>
    cases e with
    | fin b => simp [F.isFinite, F.le, F.beq]
    | inf t => simp [F.isFinite, F.le, F.beq]
    | nan => simp [F.isFinite, F.le, F.beq]

/-- C3: for equal-length flux and error arrays, `get_pixmask` returns a boolean
array of the same length whose entry at `i` is true iff the flux at `i` is
non-finite, or the flux at `i` is zero, or the error at `i` is non-finite, or
the error at `i` is a rational that is at most zero. -/
theorem get_pixmask_spec (fluxes flux_errs : List F)
    (hlen : fluxes.length = flux_errs.length) :
    (get_pixmask fluxes flux_errs).length = fluxes.length ∧
    ∀ i, i < fluxes.length →
      ((get_pixmask fluxes flux_errs)[i]? = some true ↔
        ∃ f e, fluxes[i]? = some f ∧ flux_errs[i]? = some e ∧
          (f.isFinite = false ∨ f = F.fin 0 ∨ e.isFinite = false ∨
            ∃ q, e = F.fin q ∧ q ≤ 0)) := by
  constructor
  · simp [get_pixmask, hlen]
  · intro i hi
    have hi2 : i < flux_errs.length := hlen ▸ hi
    obtain ⟨f, hf⟩ : ∃ f, fluxes[i]? = some f := ⟨_, List.getElem?_eq_getElem hi⟩
    obtain ⟨e, he⟩ : ∃ e, flux_errs[i]? = some e := ⟨_, List.getElem?_eq_getElem hi2⟩
    rw [get_pixmask, List.getElem?_zipWith, hf, he]
    constructor
    · intro h
      refine ⟨f, e, rfl, rfl, (pixmask_pointwise f e).mp ?_⟩
      simpa using h
    · rintro ⟨f', e', hf', he', hcond⟩
      obtain rfl : f = f' := by injection hf'
      obtain rfl : e = e' := by injection he'
      simpa using (pixmask_pointwise f e).mpr hcond

/-- Witness for C3 at a concrete input: flux `[1, 0, NaN]`,
error `[1, 1, 1]`. -/
theorem get_pixmask_spec_witness :
    (get_pixmask [F.fin 1, F.fin 0, F.nan] [F.fin 1, F.fin 1, F.fin 1]).length = 3 ∧
    ∀ i, i < 3 →
      ((get_pixmask [F.fin 1, F.fin 0, F.nan] [F.fin 1, F.fin 1, F.fin 1])[i]? = some true ↔
        ∃ f e, [F.fin 1, F.fin 0, F.nan][i]? = some f ∧
          [F.fin 1, F.fin 1, F.fin 1][i]? = some e ∧
          (f.isFinite = false ∨ f = F.fin 0 ∨ e.isFinite = false ∨
            ∃ q, e = F.fin q ∧ q ≤ 0)) := by
  have h := get_pixmask_spec [F.fin 1, F.fin 0, F.nan] [F.fin 1, F.fin 1, F.fin 1]
    (by decide)
  simpa using h

/-- `np.median` of a 1-d slice: NaN if the data contains a NaN (numpy sorts
NaN last and detects it), otherwise the middle element of the sorted data,
or the mean of the two middle elements for even length.  The median of an
empty slice is NaN. -/
def npmedian (l : List F) : F :=
  if l.isEmpty then F.nan
  else if l.any F.isNan then F.nan
  else
    let s := l.mergeSort F.sortKeyLe
    if l.length % 2 = 1 then (s[l.length / 2]?).getD F.nan
    else
      (((s[l.length / 2 - 1]?).getD F.nan).add ((s[l.length / 2]?).getD F.nan)).div (F.fin 2)

/-- `np.mean`: sum divided by length (NaN for the empty array, via `0/0`). -/
def npmean (l : List F) : F :=
  (l.foldl F.add (F.fin 0)).div (F.fin (l.length : ℚ))

/-- `np.var` (population variance, `ddof = 0`): mean of squared deviations
from the mean. -/
def npvar (l : List F) : F :=
  npmean (l.map (fun x => (x.sub (npmean l)).mul (x.sub (npmean l))))

/-- Column `p` of the stacked flux array, i.e. `fluxes[:, p]` (positions past
a row's end, impossible for the rectangular numpy arrays being modelled,
give NaN). -/
def colAt (fluxes : List (List F)) (p : ℕ) : List F :=
  fluxes.map (fun row => (row[p]?).getD F.nan)

/-- `get_contmask` from apogeedata.py (lines 21-46):
`f_bar = np.median(fluxes, axis=0)`, `sigma_f = np.var(fluxes, axis=0)`,
`cont1 = np.abs(f_bar-1)/1 < f_cut`, `cont2 = sigma_f < sigma_cut`,
returns `np.logical_and(cont1, cont2)`.  The `axis=0` reductions are
modelled per column. -/
def get_contmask (lambdas : List F) (fluxes : List (List F))
    (f_cut sigma_cut : F) : List Bool :=
  (List.range (fluxes.headD []).length).map (fun p =>
    ((((npmedian (colAt fluxes p)).sub (F.fin 1)).abs.div (F.fin 1)).lt f_cut) &&
      ((npvar (colAt fluxes p)).lt sigma_cut))

/-- Default `f_cut = 0.0001` of `get_contmask`. -/
def f_cut_default : F := F.fin (1 / 10000)

/-- Default `sigma_cut = 0.005` of `get_contmask`. -/
def sigma_cut_default : F := F.fin (5 / 1000)

/-- Finiteness is being a rational. -/
theorem isFinite_iff (x : F) : x.isFinite = true ↔ ∃ q, x = F.fin q := by
  cases x <;> simp [F.isFinite]

/-- Folding IEEE addition over finite values from a finite seed stays
finite. -/
theorem foldl_add_fin (l : List F) (hfin : ∀ x ∈ l, x.isFinite = true) (a : ℚ) :
    ∃ s : ℚ, l.foldl F.add (F.fin a) = F.fin s := by
  induction l generalizing a with
  | nil => exact ⟨a, rfl⟩
  | cons x xs ih =>
    obtain ⟨q, rfl⟩ := (isFinite_iff x).mp (hfin x (List.mem_cons_self x xs))
    simpa [F.add] using ih (fun y hy => hfin y (List.mem_cons_of_mem _ hy)) (a + q)

/-- `np.mean` of a nonempty all-finite slice is finite. -/
theorem npmean_fin (l : List F) (hne : l ≠ []) (hfin : ∀ x ∈ l, x.isFinite = true) :
    ∃ m : ℚ, npmean l = F.fin m := by
  obtain ⟨s, hs⟩ := foldl_add_fin l hfin 0
  have hlen : (l.length : ℚ) ≠ 0 := by
    have := List.length_pos.mpr hne
    exact_mod_cast Nat.pos_iff_ne_zero.mp this ∘ fun h => by exact_mod_cast h
  refine ⟨s / l.length, ?_⟩
  simp [npmean, hs, F.div, hlen]

/-- `np.var` of a nonempty all-finite slice is finite. -/
theorem npvar_fin (l : List F) (hne : l ≠ []) (hfin : ∀ x ∈ l, x.isFinite = true) :
    ∃ v : ℚ, npvar l = F.fin v := by
  obtain ⟨m, hm⟩ := npmean_fin l hne hfin
  have : ∃ v, npmean (l.map (fun x => (x.sub (npmean l)).mul (x.sub (npmean l)))) = F.fin v := by
    apply npmean_fin
    · simp [hne]
    · intro x hx
      simp only [List.mem_map] at hx
      obtain ⟨y, hy, rfl⟩ := hx
      obtain ⟨q, rfl⟩ := (isFinite_iff y).mp (hfin y hy)
      simp [hm, F.sub, F.neg, F.add, F.mul, F.isFinite]
  simpa [npvar] using this

/-- `np.median` of a nonempty all-finite slice is finite. -/
theorem npmedian_fin (l : List F) (hne : l ≠ []) (hfin : ∀ x ∈ l, x.isFinite = true) :
    ∃ m : ℚ, npmedian l = F.fin m := by
  have hemp : l.isEmpty = false := by
    cases l with
    | nil => exact absurd rfl hne
    | cons a t => rfl
  have hnan : l.any F.isNan = false := by
    rw [List.any_eq_false]
    intro x hx
    obtain ⟨q, rfl⟩ := (isFinite_iff x).mp (hfin x hx)
    simp [F.isNan]
  have hpos : 0 < l.length := List.length_pos.mpr hne
  have hsortlen : (l.mergeSort F.sortKeyLe).length = l.length := List.length_mergeSort l
  have hsortmem : ∀ x ∈ l.mergeSort F.sortKeyLe, x.isFinite = true := fun x hx =>
    hfin x ((List.mergeSort_perm l F.sortKeyLe).mem_iff.mp hx)
  have hmidlt : l.length / 2 < (l.mergeSort F.sortKeyLe).length := by
    rw [hsortlen]; exact Nat.div_lt_self hpos (by norm_num)
  obtain ⟨q2, hq2⟩ := (isFinite_iff _).mp (hsortmem _ (List.getElem_mem hmidlt))
  by_cases hodd : l.length % 2 = 1
  · refine ⟨q2, ?_⟩
    simp [npmedian, hemp, hnan, hodd, List.getElem?_eq_getElem hmidlt, hq2]
  · have hmidlt1 : l.length / 2 - 1 < (l.mergeSort F.sortKeyLe).length := by
      rw [hsortlen]; omega
    obtain ⟨q1, hq1⟩ := (isFinite_iff _).mp (hsortmem _ (List.getElem_mem hmidlt1))
    refine ⟨(q1 + q2) / 2, ?_⟩
    simp [npmedian, hemp, hnan, hodd, List.getElem?_eq_getElem hmidlt,
      List.getElem?_eq_getElem hmidlt1, hq1, hq2, F.add, F.div]

/-- Python slice read `a[start:stop]` (with clamping). -/
def sliceL (l : List F) (start stop : ℕ) : List F :=
  (l.drop start).take (stop - start)

/-- Python/numpy slice write `a[start:stop] = vals` for `vals` of length
`stop - start` (the only way the program uses it). -/
def writeRange (l : List F) (start : ℕ) (vals : List F) : List F :=
  l.take start ++ vals ++ l.drop (start + vals.length)

/-- The type of the external numpy routine
`np.polynomial.chebyshev.Chebyshev.fit(x, y, w=w, deg=deg)` composed with
evaluation at `x`: from the segment wavelengths, fluxes, weights and the
degree to the evaluated continuum over the segment. -/
def FitFn : Type := List F → List F → List F → ℕ → List F

/-- The evaluated continuum of one segment:
`fit = Chebyshev.fit(x=lambda_cut, y=flux_cut, w=ivar_cut, deg=deg)`
followed by `fit(lambda_cut)` (apogeedata.py lines 129-131). -/
def contOf (fit : FitFn) (lambdas flux ivar : List F) (start stop deg : ℕ) : List F :=
  fit (sliceL lambdas start stop) (sliceL flux start stop) (sliceL ivar start stop) deg

/-- `norm_flux = flux_cut / fit(lambda_cut)` (line 132). -/
def normFluxOf (fit : FitFn) (lambdas flux ivar : List F) (start stop deg : ℕ) : List F :=
  List.zipWith F.div (sliceL flux start stop) (contOf fit lambdas flux ivar start stop deg)

/-- `norm_flux_err = flux_err_cut / fit(lambda_cut)` (line 133). -/
def normFluxErrOf (fit : FitFn) (lambdas flux flux_err ivar : List F)
    (start stop deg : ℕ) : List F :=
  List.zipWith F.div (sliceL flux_err start stop)
    (contOf fit lambdas flux ivar start stop deg)

/-- `norm_ivar = 1. / norm_flux_err**2` (line 134). -/
def normIvarRawOf (fit : FitFn) (lambdas flux flux_err ivar : List F)
    (start stop deg : ℕ) : List F :=
  (normFluxErrOf fit lambdas flux flux_err ivar start stop deg).map
    (fun e => (F.fin 1).div (e.mul e))

/-- The entries selected by `ind = np.isfinite(norm_ivar) & (norm_ivar > 0)`
(line 136). -/
def goodIvar (v : F) : Bool := v.isFinite && (F.fin 0).lt v

/-- `arr.min()` of a 1-d numpy array: `none` models the `ValueError` numpy
raises on an empty array. -/
def npmin (l : List F) : Option F :=
  match l with
  | [] => none
  | x :: xs => some (xs.foldl (fun a b => if b.le a then b else a) x)

/-- The null-division fix of lines 136-138:
`ind = np.isfinite(norm_ivar) & (norm_ivar > 0)`,
`norm_ivar[~ind] = norm_ivar[ind].min() * 1e-2`.
When `ind` selects nothing, `norm_ivar[ind].min()` raises
(`Except.error`), which is modelled before the assignment exactly as numpy
evaluates the right-hand side first. -/
def normIvarFloor (norm_ivar : List F) : Except String (List F) :=
  match npmin (norm_ivar.filter goodIvar) with
  | none => Except.error "zero-size array to reduction operation minimum which has no identity"
  | some m =>
    Except.ok (norm_ivar.map (fun v => if goodIvar v then v else m.mul (F.fin (1 / 100))))

/-- `badpix2 = get_pixmask(norm_flux, norm_flux_err)` (line 139). -/
def badpixOf (fit : FitFn) (lambdas flux flux_err ivar : List F)
    (start stop deg : ℕ) : List Bool :=
  get_pixmask (normFluxOf fit lambdas flux ivar start stop deg)
    (normFluxErrOf fit lambdas flux flux_err ivar start stop deg)

/-- Lines 140-141: `np.ma.filled(np.ma.array(norm_flux, mask=badpix2,
fill_value=1.0))` — masked normalized flux entries become `1.0`. -/
def fillFlux (badpix : List Bool) (norm_flux : List F) : List F :=
  List.zipWith (fun b v => if b then F.fin 1 else v) badpix norm_flux

/-- Lines 142-143: masked normalized inverse-variance entries become `0.`. -/
def fillIvar (badpix : List Bool) (norm_ivar : List F) : List F :=
  List.zipWith (fun b v => if b then F.fin 0 else v) badpix norm_ivar

/-- One iteration of the segment loop (lines 124-143) for one star: the
evaluated continuum of the segment together with the filled normalized flux
and normalized inverse variance to be written at `[start:stop)`. -/
def segmentNorm (fit : FitFn) (lambdas flux flux_err ivar : List F)
    (start stop deg : ℕ) : Except String (List F × List F × List F) :=
  match normIvarFloor (normIvarRawOf fit lambdas flux flux_err ivar start stop deg) with
  | Except.error e => Except.error e
  | Except.ok flooredIvar =>
    let badpix := badpixOf fit lambdas flux flux_err ivar start stop deg
    Except.ok (contOf fit lambdas flux ivar start stop deg,
      fillFlux badpix (normFluxOf fit lambdas flux ivar start stop deg),
      fillIvar badpix flooredIvar)

/-- The segment loop `for i in range(len(ranges))` (lines 123-143) for one
star, threading the shared `continua` row and the star's `norm_fluxes` /
`norm_ivars` rows through the slice writes of lines 131, 141 and 143. -/
def processSegments (fit : FitFn) (lambdas flux flux_err ivar : List F) (deg : ℕ) :
    List (ℕ × ℕ) → List F × List F × List F → Except String (List F × List F × List F)
  | [], acc => Except.ok acc
  | (start, stop) :: rest, (cont, nfRow, niRow) =>
    match segmentNorm fit lambdas flux flux_err ivar start stop deg with
    | Except.error e => Except.error e
    | Except.ok (cseg, fseg, iseg) =>
      processSegments fit lambdas flux flux_err ivar deg rest
        (writeRange cont start cseg, writeRange nfRow start fseg, writeRange niRow start iseg)

/-- `norm_ivars[jj,:][contmask] = 0.` (line 144): boolean-mask assignment
into the star's normalized inverse-variance row. -/
def zeroContPix (contmask : List Bool) (niRow : List F) : List F :=
  List.zipWith (fun b v => if b then F.fin 0 else v) contmask niRow

/-- `continuum_normalize_Chebyshev` from apogeedata.py (lines 75-145).
The accumulators `continua`, `norm_fluxes`, `norm_ivars` are zero-filled
(lines 113-116; `norm_flux_errs` is also allocated in the source but never
written or returned, so it is omitted).  The `return` statement of line 145
sits INSIDE the `for jj in range(nstars)` loop, so the function processes
star `jj = 0` and returns; when there are no stars the loop body never runs
and Python returns `None`, modelled by `none`.  The result triple is
`(norm_fluxes, norm_ivars, continua)` in the source's return order. -/
def continuum_normalize_Chebyshev (fit : FitFn) (lambdas : List F)
    (fluxes flux_errs ivars : List (List F)) (contmask : List Bool)
    (ranges : List (ℕ × ℕ)) (deg : ℕ) :
    Option (Except String (List (List F) × List (List F) × List F)) :=
  let continua := List.replicate lambdas.length (F.fin 0)
  let norm_fluxes := fluxes.map (fun r => List.replicate r.length (F.fin 0))
  let norm_ivars := ivars.map (fun r => List.replicate r.length (F.fin 0))
  match fluxes with
  | [] => none
  | flux0 :: _ =>
    let flux_err0 := flux_errs.headD []
    let ivar0 := ivars.headD []
    some (match processSegments fit lambdas flux0 flux_err0 ivar0 deg ranges
            (continua, List.replicate flux0.length (F.fin 0),
              List.replicate ivar0.length (F.fin 0)) with
      | Except.error e => Except.error e
      | Except.ok (cont, nfRow, niRow) =>
        Except.ok (nfRow :: norm_fluxes.drop 1,
          zeroContPix contmask niRow :: norm_ivars.drop 1, cont))

/-- The segment configuration of `ApogeeDF.__init__` (line 155):
`self.ranges = [[371,3192], [3697,5997], [6461,8255]]`. -/
def apogeeRanges : List (ℕ × ℕ) := [(371, 3192), (3697, 5997), (6461, 8255)]

/-- C4: for a nonempty NaN-free rectangular flux ensemble, `get_contmask`
with the default cuts returns a mask over the wavelength axis whose position
`p` is true iff the across-star median flux at `p` is within `1e-4` of 1
(strictly) and the across-star flux variance at `p` is strictly below
`5e-3`. -/
theorem get_contmask_spec (lambdas : List F) (fluxes : List (List F)) (npix : ℕ)
    (hne : fluxes ≠ [])
    (hlen : ∀ row ∈ fluxes, row.length = npix)
    (hfin : ∀ row ∈ fluxes, ∀ x ∈ row, x.isFinite = true) :
    (get_contmask lambdas fluxes f_cut_default sigma_cut_default).length = npix ∧
    ∀ p, p < npix → ∃ m v : ℚ,
      npmedian (colAt fluxes p) = F.fin m ∧
      npvar (colAt fluxes p) = F.fin v ∧
      ((get_contmask lambdas fluxes f_cut_default sigma_cut_default)[p]? = some true ↔
        (|m - 1| < 1 / 10000 ∧ v < 5 / 1000)) := by
  obtain ⟨row0, rest, rfl⟩ : ∃ r t, fluxes = r :: t := by
    cases fluxes with
    | nil => exact absurd rfl hne
    | cons r t => exact ⟨r, t, rfl⟩
  have hhead : ((row0 :: rest).headD []).length = npix := hlen row0 (List.mem_cons_self _ _)
  constructor
  · simpa [get_contmask] using hhead
  · intro p hp
    have hcolne : colAt (row0 :: rest) p ≠ [] := by simp [colAt]
    have hcolfin : ∀ x ∈ colAt (row0 :: rest) p, x.isFinite = true := by
      intro x hx
      simp only [colAt, List.mem_map] at hx
      obtain ⟨row, hrow, rfl⟩ := hx
      have hplen : p < row.length := by rw [hlen row hrow]; exact hp
      rw [List.getElem?_eq_getElem hplen]
      exact hfin row hrow _ (List.getElem_mem hplen)
    obtain ⟨m, hm⟩ := npmedian_fin _ hcolne hcolfin
    obtain ⟨v, hv⟩ := npvar_fin _ hcolne hcolfin
    refine ⟨m, v, hm, hv, ?_⟩
    have hp0 : p < ((row0 :: rest).headD []).length := by rw [hhead]; exact hp
    rw [get_contmask, List.getElem?_map, List.getElem?_range hp0]
    simp [hm, hv, F.sub, F.neg, F.add, F.abs, F.div, F.lt,
      f_cut_default, sigma_cut_default, ← sub_eq_add_neg]

/-- Witness for C4: three identical one-pixel spectra of flux 1. -/
theorem get_contmask_spec_witness :
    (get_contmask [] [[F.fin 1], [F.fin 1], [F.fin 1]]
        f_cut_default sigma_cut_default).length = 1 ∧
    ∀ p, p < 1 → ∃ m v : ℚ,
      npmedian (colAt [[F.fin 1], [F.fin 1], [F.fin 1]] p) = F.fin m ∧
      npvar (colAt [[F.fin 1], [F.fin 1], [F.fin 1]] p) = F.fin v ∧
      ((get_contmask [] [[F.fin 1], [F.fin 1], [F.fin 1]]
          f_cut_default sigma_cut_default)[p]? = some true ↔
        (|m - 1| < 1 / 10000 ∧ v < 5 / 1000)) :=
  get_contmask_spec [] [[F.fin 1], [F.fin 1], [F.fin 1]] 1
    (by decide) (by decide) (by decide)

/-- C9: `get_contmask` is total and NaN-tolerant: on every input, also one
containing NaNs, it returns a boolean mask whose length is the pixel count,
and a NaN anywhere in a column deterministically classifies that position as
non-continuum (the median of a NaN-containing column is NaN and every IEEE
comparison against NaN is false). -/
theorem get_contmask_total (lambdas : List F) (fluxes : List (List F))
    (f_cut sigma_cut : F) :
    (get_contmask lambdas fluxes f_cut sigma_cut).length = (fluxes.headD []).length ∧
    ∀ p, p < (fluxes.headD []).length →
      (colAt fluxes p).any F.isNan = true →
      (get_contmask lambdas fluxes f_cut sigma_cut)[p]? = some false := by
  constructor
  · simp [get_contmask]
  · intro p hp hnan
    have hemp : (colAt fluxes p).isEmpty = false := by
      cases hcol : colAt fluxes p with
      | nil => rw [hcol] at hnan; simp at hnan
      | cons a t => rfl
    have hmed : npmedian (colAt fluxes p) = F.nan := by
      simp [npmedian, hemp, hnan]
    rw [get_contmask, List.getElem?_map, List.getElem?_range hp]
    simp [hmed, F.sub, F.add, F.neg, F.abs, F.div, F.lt]

/-- Witness for C9: a single one-pixel spectrum whose flux is NaN is
classified non-continuum. -/
theorem get_contmask_total_witness :
    (get_contmask [] [[F.nan]] f_cut_default sigma_cut_default)[0]? = some false :=
  (get_contmask_total [] [[F.nan]] f_cut_default sigma_cut_default).2 0
    (by decide) (by decide)

/-- `goodIvar` entries are finite. -/
theorem goodIvar_isFinite (v : F) (h : goodIvar v = true) : v.isFinite = true := by
  rw [goodIvar, Bool.and_eq_true] at h
  exact h.1

/-- The fold inside `npmin` over finite values: the result is the least
rational of the seed and the list. -/
theorem foldl_min_fin (xs : List F) (hfin : ∀ x ∈ xs, x.isFinite = true) (a : ℚ) :
    ∃ mq : ℚ,
      xs.foldl (fun a b => if b.le a then b else a) (F.fin a) = F.fin mq ∧
      (mq = a ∨ F.fin mq ∈ xs) ∧ mq ≤ a ∧ ∀ q, F.fin q ∈ xs → mq ≤ q := by
  induction xs generalizing a with
  | nil => exact ⟨a, rfl, Or.inl rfl, le_refl a, by simp⟩
  | cons y ys ih =>
    obtain ⟨qy, rfl⟩ := (isFinite_iff y).mp (hfin y (List.mem_cons_self y ys))
    have hstep : ((F.fin qy).le (F.fin a) : Bool) = decide (qy ≤ a) := rfl
    obtain ⟨mq, heq, hmem, hle, hbound⟩ :=
      ih (fun x hx => hfin x (List.mem_cons_of_mem _ hx)) (if qy ≤ a then qy else a)
    refine ⟨mq, ?_, ?_, ?_, ?_⟩
    · rw [List.foldl_cons,
        show (if (F.fin qy).le (F.fin a) = true then F.fin qy else F.fin a) =
          F.fin (if qy ≤ a then qy else a) from by by_cases h : qy ≤ a <;> simp [F.le, h]]
      exact heq
    · rcases hmem with h | h
      · by_cases hqa : qy ≤ a
        · rw [if_pos hqa] at h
          exact Or.inr (h ▸ List.mem_cons_self _ _)
        · rw [if_neg hqa] at h
          exact Or.inl h
      · exact Or.inr (List.mem_cons_of_mem _ h)
    · refine le_trans hle ?_
      by_cases hqa : qy ≤ a <;> simp [hqa]
    · intro q hq
      rcases List.mem_cons.mp hq with h | h
      · have hq2 : q = qy := by injection h
        rw [hq2]
        refine le_trans hle ?_
        by_cases hqa : qy ≤ a
        · rw [if_pos hqa]
        · rw [if_neg hqa]
          exact le_of_not_le hqa
      · exact hbound q h

/-- `arr.min()` of a nonempty all-finite array is its least element. -/
theorem npmin_fin_spec (l : List F) (hne : l ≠ []) (hfin : ∀ x ∈ l, x.isFinite = true) :
    ∃ mq : ℚ, npmin l = some (F.fin mq) ∧ F.fin mq ∈ l ∧
      ∀ q, F.fin q ∈ l → mq ≤ q := by
  cases l with
  | nil => exact absurd rfl hne
  | cons x xs =>
    obtain ⟨q0, rfl⟩ := (isFinite_iff x).mp (hfin x (List.mem_cons_self x xs))
    obtain ⟨mq, heq, hmem, hle, hbound⟩ :=
      foldl_min_fin xs (fun y hy => hfin y (List.mem_cons_of_mem _ hy)) q0
    refine ⟨mq, ?_, ?_, ?_⟩
    · simpa [npmin] using heq
    · rcases hmem with h | h
      · exact h ▸ List.mem_cons_self _ _
      · exact List.mem_cons_of_mem _ h
    · intro q hq
      rcases List.mem_cons.mp hq with h | h
      · obtain rfl : q = q0 := by injection h
        exact hle
      · exact hbound q h

/-- A concrete stand-in fit (the constant polynomial 1) used to instantiate
theorems at concrete inputs; the theorems themselves hold for every fit. -/
def constOneFit : FitFn := fun x _ _ _ => x.map (fun _ => F.fin 1)

/-- C2: within a segment, writing `raw` for the normalized inverse variance
`1/(normalized error)^2` computed there: if some entry of `raw` is finite
and positive then the null-division fix succeeds and replaces exactly the
non-finite-or-non-positive entries by `m * 1e-2` where `m` is the least
finite positive entry of `raw`; if no entry is finite and positive the step
raises (numpy's empty-reduction `ValueError`), and the segment computation
fails exactly when this step fails — no default is silently substituted. -/
theorem normIvar_floor_spec (fit : FitFn) (lambdas flux flux_err ivar : List F)
    (start stop deg : ℕ) (raw : List F)
    (hraw : raw = normIvarRawOf fit lambdas flux flux_err ivar start stop deg) :
    ((∃ x ∈ raw, goodIvar x = true) →
      ∃ mq : ℚ, F.fin mq ∈ raw ∧ goodIvar (F.fin mq) = true ∧
        (∀ q, F.fin q ∈ raw → goodIvar (F.fin q) = true → mq ≤ q) ∧
        normIvarFloor raw =
          Except.ok (raw.map (fun v =>
            if goodIvar v then v else F.fin (mq * (1 / 100))))) ∧
    ((∀ x ∈ raw, goodIvar x = false) →
      normIvarFloor raw =
        Except.error "zero-size array to reduction operation minimum which has no identity") ∧
    (∀ e, segmentNorm fit lambdas flux flux_err ivar start stop deg = Except.error e ↔
      normIvarFloor raw = Except.error e) := by
  refine ⟨?_, ?_, ?_⟩
  · rintro ⟨x, hx, hgood⟩
    have hne : raw.filter goodIvar ≠ [] := by
      intro hnil
      have : x ∈ raw.filter goodIvar := List.mem_filter.mpr ⟨hx, hgood⟩
      rw [hnil] at this
      simp at this
    have hfin : ∀ y ∈ raw.filter goodIvar, y.isFinite = true := by
      intro y hy
      exact goodIvar_isFinite y (List.mem_filter.mp hy).2
    obtain ⟨mq, hmin, hmem, hbound⟩ := npmin_fin_spec _ hne hfin
    refine ⟨mq, (List.mem_filter.mp hmem).1, (List.mem_filter.mp hmem).2, ?_, ?_⟩
    · intro q hq hgq
      exact hbound q (List.mem_filter.mpr ⟨hq, hgq⟩)
    · rw [normIvarFloor, hmin]
      rfl
  · intro hall
    have hnil : raw.filter goodIvar = [] := by
      rw [List.filter_eq_nil_iff]
      intro x hx
      simp [hall x hx]
    rw [normIvarFloor, hnil]
    rfl
  · intro e
    rw [segmentNorm, ← hraw]
    cases hfl : normIvarFloor raw with
    | error e2 => simp
    | ok l => simp

/-- Witness for C2: a 2-pixel segment with unit errors and a unit continuum,
whose normalized inverse variances are all finite and positive. -/
theorem normIvar_floor_spec_witness :
    ((∃ x ∈ normIvarRawOf constOneFit [F.fin 0, F.fin 1] [F.fin 2, F.fin 2]
        [F.fin 1, F.fin 1] [F.fin 1, F.fin 1] 0 2 3, goodIvar x = true) →
      ∃ mq : ℚ, F.fin mq ∈ normIvarRawOf constOneFit [F.fin 0, F.fin 1] [F.fin 2, F.fin 2]
          [F.fin 1, F.fin 1] [F.fin 1, F.fin 1] 0 2 3 ∧
        goodIvar (F.fin mq) = true ∧
        (∀ q, F.fin q ∈ normIvarRawOf constOneFit [F.fin 0, F.fin 1] [F.fin 2, F.fin 2]
            [F.fin 1, F.fin 1] [F.fin 1, F.fin 1] 0 2 3 →
          goodIvar (F.fin q) = true → mq ≤ q) ∧
        normIvarFloor (normIvarRawOf constOneFit [F.fin 0, F.fin 1] [F.fin 2, F.fin 2]
            [F.fin 1, F.fin 1] [F.fin 1, F.fin 1] 0 2 3) =
          Except.ok ((normIvarRawOf constOneFit [F.fin 0, F.fin 1] [F.fin 2, F.fin 2]
              [F.fin 1, F.fin 1] [F.fin 1, F.fin 1] 0 2 3).map (fun v =>
            if goodIvar v then v else F.fin (mq * (1 / 100))))) ∧
    ((∀ x ∈ normIvarRawOf constOneFit [F.fin 0, F.fin 1] [F.fin 2, F.fin 2]
        [F.fin 1, F.fin 1] [F.fin 1, F.fin 1] 0 2 3, goodIvar x = false) →
      normIvarFloor (normIvarRawOf constOneFit [F.fin 0, F.fin 1] [F.fin 2, F.fin 2]
          [F.fin 1, F.fin 1] [F.fin 1, F.fin 1] 0 2 3) =
        Except.error "zero-size array to reduction operation minimum which has no identity") ∧
    (∀ e, segmentNorm constOneFit [F.fin 0, F.fin 1] [F.fin 2, F.fin 2]
        [F.fin 1, F.fin 1] [F.fin 1, F.fin 1] 0 2 3 = Except.error e ↔
      normIvarFloor (normIvarRawOf constOneFit [F.fin 0, F.fin 1] [F.fin 2, F.fin 2]
          [F.fin 1, F.fin 1] [F.fin 1, F.fin 1] 0 2 3) = Except.error e) :=
  normIvar_floor_spec constOneFit [F.fin 0, F.fin 1] [F.fin 2, F.fin 2]
    [F.fin 1, F.fin 1] [F.fin 1, F.fin 1] 0 2 3 _ rfl

/-- The length of a slice fully inside the array. -/
theorem sliceL_length (l : List F) (start stop : ℕ) (hstop : stop ≤ l.length) :
    (sliceL l start stop).length = stop - start := by
  simp [sliceL]
  omega

/-- A slice write inside bounds preserves the array length. -/
theorem writeRange_length (l : List F) (start : ℕ) (vals : List F)
    (h : start + vals.length ≤ l.length) :
    (writeRange l start vals).length = l.length := by
  simp [writeRange]
  omega

/-- Reading strictly before a slice write is unchanged. -/
theorem writeRange_getElem_lt (l : List F) (start : ℕ) (vals : List F) (p : ℕ)
    (hp : p < start) (hs : start ≤ l.length) :
    (writeRange l start vals)[p]? = l[p]? := by
  have htl : (l.take start).length = start := by simp; omega
  have htv : (l.take start ++ vals).length = start + vals.length := by
    rw [List.length_append, htl]
  rw [writeRange, List.getElem?_append, if_pos (by rw [htv]; omega),
    List.getElem?_append, if_pos (by rw [htl]; omega),
    List.getElem?_take, if_pos hp]

/-- Reading at or beyond the end of a slice write is unchanged. -/
theorem writeRange_getElem_ge (l : List F) (start : ℕ) (vals : List F) (p : ℕ)
    (hp : start + vals.length ≤ p) (hs : start + vals.length ≤ l.length) :
    (writeRange l start vals)[p]? = l[p]? := by
  have htl : (l.take start).length = start := by simp; omega
  have htv : (l.take start ++ vals).length = start + vals.length := by
    rw [List.length_append, htl]
  rw [writeRange, List.getElem?_append, if_neg (by rw [htv]; omega), htv,
    List.getElem?_drop]
  congr 1
  omega

/-- Reading inside a slice write returns the written value. -/
theorem writeRange_getElem_in (l : List F) (start : ℕ) (vals : List F) (p : ℕ)
    (h1 : start ≤ p) (h2 : p < start + vals.length) (hs : start ≤ l.length) :
    (writeRange l start vals)[p]? = vals[p - start]? := by
  have htl : (l.take start).length = start := by simp; omega
  have htv : (l.take start ++ vals).length = start + vals.length := by
    rw [List.length_append, htl]
  rw [writeRange, List.getElem?_append, if_pos (by rw [htv]; omega),
    List.getElem?_append, if_neg (by rw [htl]; omega), htl]

/-- A successful floor step keeps the array length. -/
theorem normIvarFloor_ok_length (raw l : List F)
    (h : normIvarFloor raw = Except.ok l) : l.length = raw.length := by
  rw [normIvarFloor] at h
  cases hm : npmin (raw.filter goodIvar) with
  | none => rw [hm] at h; simp at h
  | some m =>
    rw [hm] at h
    injection h with h2
    rw [← h2]
    simp

/-- A successful segment computation implies the segment is nonempty and all
three outputs have the segment's length. -/
theorem segmentNorm_ok_lengths (fit : FitFn)
    (hfit : ∀ x y w d, (fit x y w d).length = x.length)
    (lambdas flux flux_err ivar : List F) (start stop deg : ℕ)
    (hstop : stop ≤ lambdas.length)
    (hflux : flux.length = lambdas.length) (herr : flux_err.length = lambdas.length)
    (cseg fseg iseg : List F)
    (hok : segmentNorm fit lambdas flux flux_err ivar start stop deg =
      Except.ok (cseg, fseg, iseg)) :
    start < stop ∧ cseg.length = stop - start ∧ fseg.length = stop - start ∧
      iseg.length = stop - start := by
  have hcont : (contOf fit lambdas flux ivar start stop deg).length = stop - start := by
    rw [contOf, hfit, sliceL_length _ _ _ hstop]
  have hnf : (normFluxOf fit lambdas flux ivar start stop deg).length = stop - start := by
    rw [normFluxOf, List.length_zipWith, hcont, sliceL_length _ _ _ (by omega)]
    omega
  have hne : (normFluxErrOf fit lambdas flux flux_err ivar start stop deg).length =
      stop - start := by
    rw [normFluxErrOf, List.length_zipWith, hcont, sliceL_length _ _ _ (by omega)]
    omega
  have hraw : (normIvarRawOf fit lambdas flux flux_err ivar start stop deg).length =
      stop - start := by
    rw [normIvarRawOf, List.length_map, hne]
  have hbp : (badpixOf fit lambdas flux flux_err ivar start stop deg).length =
      stop - start := by
    rw [badpixOf, get_pixmask, List.length_zipWith, hnf, hne]
    omega
  rw [segmentNorm] at hok
  cases hfl : normIvarFloor (normIvarRawOf fit lambdas flux flux_err ivar start stop deg) with
  | error e => rw [hfl] at hok; simp at hok
  | ok fl =>
    rw [hfl] at hok
    have hfll : fl.length = stop - start := by
      rw [normIvarFloor_ok_length _ _ hfl, hraw]
    have hpos : start < stop := by
      by_contra hc
      have h0 : stop - start = 0 := by omega
      have hrawnil : normIvarRawOf fit lambdas flux flux_err ivar start stop deg = [] := by
        apply List.eq_nil_of_length_eq_zero
        rw [hraw, h0]
      rw [hrawnil] at hfl
      simp [normIvarFloor, npmin] at hfl
    injection hok with h
    injection h with h1 h23
    injection h23 with h2 h3
    refine ⟨hpos, ?_, ?_, ?_⟩
    · rw [← h1, hcont]
    · rw [← h2, fillFlux, List.length_zipWith, hbp, hnf]
      omega
    · rw [← h3, fillIvar, List.length_zipWith, hbp, hfll]
      omega

/-- A successful run of the segment loop preserves the lengths of the three
accumulator arrays (all ranges lie inside the wavelength axis). -/
theorem processSegments_ok_lengths (fit : FitFn)
    (hfit : ∀ x y w d, (fit x y w d).length = x.length)
    (lambdas flux flux_err ivar : List F) (deg : ℕ)
    (hflux : flux.length = lambdas.length) (herr : flux_err.length = lambdas.length)
    (ranges : List (ℕ × ℕ)) :
    ∀ cont nf ni c2 f2 i2,
      (∀ r ∈ ranges, r.2 ≤ lambdas.length) →
      cont.length = lambdas.length → nf.length = lambdas.length →
      ni.length = lambdas.length →
      processSegments fit lambdas flux flux_err ivar deg ranges (cont, nf, ni) =
        Except.ok (c2, f2, i2) →
      c2.length = lambdas.length ∧ f2.length = lambdas.length ∧
        i2.length = lambdas.length := by
  induction ranges with
  | nil =>
    intro cont nf ni c2 f2 i2 _ h1 h2 h3 hok
    rw [processSegments] at hok
    injection hok with h
    injection h with ha hbc
    injection hbc with hb hc
    exact ⟨ha ▸ h1, hb ▸ h2, hc ▸ h3⟩
  | cons r rest ih =>
    obtain ⟨start, stop⟩ := r
    intro cont nf ni c2 f2 i2 hr h1 h2 h3 hok
    rw [processSegments] at hok
    cases hseg : segmentNorm fit lambdas flux flux_err ivar start stop deg with
    | error e => rw [hseg] at hok; simp at hok
    | ok out =>
      obtain ⟨cseg, fseg, iseg⟩ := out
      rw [hseg] at hok
      have hstop : stop ≤ lambdas.length := hr _ (List.mem_cons_self _ _)
      obtain ⟨hpos, hl1, hl2, hl3⟩ := segmentNorm_ok_lengths fit hfit lambdas flux flux_err
        ivar start stop deg hstop hflux herr cseg fseg iseg hseg
      refine ih _ _ _ _ _ _ (fun r2 hr2 => hr _ (List.mem_cons_of_mem _ hr2)) ?_ ?_ ?_ hok
      · rw [writeRange_length _ _ _ (by rw [hl1]; omega), h1]
      · rw [writeRange_length _ _ _ (by rw [hl2]; omega), h2]
      · rw [writeRange_length _ _ _ (by rw [hl3]; omega), h3]

/-- Positions not covered by any remaining range are untouched by the
segment loop. -/
theorem processSegments_ok_outside (fit : FitFn)
    (hfit : ∀ x y w d, (fit x y w d).length = x.length)
    (lambdas flux flux_err ivar : List F) (deg : ℕ)
    (hflux : flux.length = lambdas.length) (herr : flux_err.length = lambdas.length)
    (ranges : List (ℕ × ℕ)) :
    ∀ cont nf ni c2 f2 i2 p,
      (∀ r ∈ ranges, r.2 ≤ lambdas.length) →
      cont.length = lambdas.length → nf.length = lambdas.length →
      ni.length = lambdas.length →
      processSegments fit lambdas flux flux_err ivar deg ranges (cont, nf, ni) =
        Except.ok (c2, f2, i2) →
      (∀ r ∈ ranges, p < r.1 ∨ r.2 ≤ p) →
      c2[p]? = cont[p]? ∧ f2[p]? = nf[p]? ∧ i2[p]? = ni[p]? := by
  induction ranges with
  | nil =>
    intro cont nf ni c2 f2 i2 p _ _ _ _ hok _
    rw [processSegments] at hok
    injection hok with h
    injection h with ha hbc
    injection hbc with hb hc
    exact ⟨ha ▸ rfl, hb ▸ rfl, hc ▸ rfl⟩
  | cons r rest ih =>
    obtain ⟨start, stop⟩ := r
    intro cont nf ni c2 f2 i2 p hr h1 h2 h3 hok hout
    rw [processSegments] at hok
    cases hseg : segmentNorm fit lambdas flux flux_err ivar start stop deg with
    | error e => rw [hseg] at hok; simp at hok
    | ok out =>
      obtain ⟨cseg, fseg, iseg⟩ := out
      rw [hseg] at hok
      have hstop : stop ≤ lambdas.length := hr _ (List.mem_cons_self _ _)
      obtain ⟨hpos, hl1, hl2, hl3⟩ := segmentNorm_ok_lengths fit hfit lambdas flux flux_err
        ivar start stop deg hstop hflux herr cseg fseg iseg hseg
      obtain ⟨hc, hf, hi⟩ := ih _ _ _ _ _ _ p
        (fun r2 hr2 => hr _ (List.mem_cons_of_mem _ hr2))
        (by rw [writeRange_length _ _ _ (by rw [hl1]; omega), h1])
        (by rw [writeRange_length _ _ _ (by rw [hl2]; omega), h2])
        (by rw [writeRange_length _ _ _ (by rw [hl3]; omega), h3])
        hok (fun r2 hr2 => hout _ (List.mem_cons_of_mem _ hr2))
      rcases hout (start, stop) (List.mem_cons_self _ _) with hlt | hge
      · refine ⟨?_, ?_, ?_⟩
        · rw [hc, writeRange_getElem_lt _ _ _ _ hlt (by omega)]
        · rw [hf, writeRange_getElem_lt _ _ _ _ hlt (by omega)]
        · rw [hi, writeRange_getElem_lt _ _ _ _ hlt (by omega)]
      · refine ⟨?_, ?_, ?_⟩
        · rw [hc, writeRange_getElem_ge _ _ _ _ (by omega) (by omega)]
        · rw [hf, writeRange_getElem_ge _ _ _ _ (by omega) (by omega)]
        · rw [hi, writeRange_getElem_ge _ _ _ _ (by omega) (by omega)]

/-- Positions inside a range read back the values computed for that segment,
for ordered pairwise-disjoint ranges. -/
theorem processSegments_ok_covered (fit : FitFn)
    (hfit : ∀ x y w d, (fit x y w d).length = x.length)
    (lambdas flux flux_err ivar : List F) (deg : ℕ)
    (hflux : flux.length = lambdas.length) (herr : flux_err.length = lambdas.length)
    (ranges : List (ℕ × ℕ)) :
    ∀ cont nf ni c2 f2 i2 start stop k,
      (∀ r ∈ ranges, r.2 ≤ lambdas.length) →
      List.Pairwise (fun r1 r2 => r1.2 ≤ r2.1) ranges →
      cont.length = lambdas.length → nf.length = lambdas.length →
      ni.length = lambdas.length →
      processSegments fit lambdas flux flux_err ivar deg ranges (cont, nf, ni) =
        Except.ok (c2, f2, i2) →
      (start, stop) ∈ ranges → k < stop - start →
      ∃ cseg fseg iseg,
        segmentNorm fit lambdas flux flux_err ivar start stop deg =
          Except.ok (cseg, fseg, iseg) ∧
        c2[start + k]? = cseg[k]? ∧ f2[start + k]? = fseg[k]? ∧
          i2[start + k]? = iseg[k]? := by
  induction ranges with
  | nil =>
    intro cont nf ni c2 f2 i2 start stop k _ _ _ _ _ _ hmem _
    simp at hmem
  | cons r rest ih =>
    obtain ⟨a, b⟩ := r
    intro cont nf ni c2 f2 i2 start stop k hr hdisj h1 h2 h3 hok hmem hk
    rw [processSegments] at hok
    cases hseg : segmentNorm fit lambdas flux flux_err ivar a b deg with
    | error e => rw [hseg] at hok; simp at hok
    | ok out =>
      obtain ⟨cseg, fseg, iseg⟩ := out
      rw [hseg] at hok
      have hstop : b ≤ lambdas.length := hr _ (List.mem_cons_self _ _)
      obtain ⟨hpos, hl1, hl2, hl3⟩ := segmentNorm_ok_lengths fit hfit lambdas flux flux_err
        ivar a b deg hstop hflux herr cseg fseg iseg hseg
      rcases List.mem_cons.mp hmem with hhd | htl
      · injection hhd with hsa hsb
        subst hsa
        subst hsb
        obtain ⟨hc, hf, hi⟩ := processSegments_ok_outside fit hfit lambdas flux flux_err
          ivar deg hflux herr rest _ _ _ _ _ _ (start + k)
          (fun r2 hr2 => hr _ (List.mem_cons_of_mem _ hr2))
          (by rw [writeRange_length _ _ _ (by rw [hl1]; omega), h1])
          (by rw [writeRange_length _ _ _ (by rw [hl2]; omega), h2])
          (by rw [writeRange_length _ _ _ (by rw [hl3]; omega), h3])
          hok
          (by
            intro r2 hr2
            left
            have := (List.pairwise_cons.mp hdisj).1 r2 hr2
            omega)
        refine ⟨cseg, fseg, iseg, hseg, ?_, ?_, ?_⟩
        · rw [hc, writeRange_getElem_in _ _ _ _ (by omega) (by omega) (by omega)]
          congr 1
          omega
        · rw [hf, writeRange_getElem_in _ _ _ _ (by omega) (by omega) (by omega)]
          congr 1
          omega
        · rw [hi, writeRange_getElem_in _ _ _ _ (by omega) (by omega) (by omega)]
          congr 1
          omega
      · exact ih _ _ _ _ _ _ start stop k
          (fun r2 hr2 => hr _ (List.mem_cons_of_mem _ hr2))
          (List.pairwise_cons.mp hdisj).2
          (by rw [writeRange_length _ _ _ (by rw [hl1]; omega), h1])
          (by rw [writeRange_length _ _ _ (by rw [hl2]; omega), h2])
          (by rw [writeRange_length _ _ _ (by rw [hl3]; omega), h3])
          hok htl hk

/-- C6: whenever `continuum_normalize_Chebyshev` returns normally, the
normalized inverse-variance matrix has one row per star and is 0 at every
continuum-mask position of every star, regardless of the fit: row 0 by the
explicit masked assignment of line 144, and every later row because the
early return of line 145 leaves it at its zero initialization. -/
theorem contmask_ivar_zero (fit : FitFn)
    (hfit : ∀ x y w d, (fit x y w d).length = x.length)
    (lambdas : List F) (fluxes flux_errs ivars : List (List F))
    (contmask : List Bool) (ranges : List (ℕ × ℕ)) (deg : ℕ)
    (hranges : ∀ r ∈ ranges, r.2 ≤ lambdas.length)
    (hrows : ∀ row ∈ fluxes, row.length = lambdas.length)
    (herows : ∀ row ∈ flux_errs, row.length = lambdas.length)
    (hirows : ∀ row ∈ ivars, row.length = lambdas.length)
    (hcm : contmask.length = lambdas.length)
    (herlen : flux_errs.length = fluxes.length)
    (hivlen : ivars.length = fluxes.length)
    (nf ni : List (List F)) (cont : List F)
    (hok : continuum_normalize_Chebyshev fit lambdas fluxes flux_errs ivars
      contmask ranges deg = some (Except.ok (nf, ni, cont))) :
    ni.length = ivars.length ∧
    ∀ (s : ℕ) (row : List F), ni[s]? = some row → ∀ (p : ℕ),
      contmask[p]? = some true → row[p]? = some (F.fin 0) := by
  obtain ⟨flux0, frest, rfl⟩ : ∃ r t, fluxes = r :: t := by
    cases hfl : fluxes with
    | nil => rw [hfl] at hok; simp [continuum_normalize_Chebyshev] at hok
    | cons r t => exact ⟨r, t, rfl⟩
  obtain ⟨fe0, ferest, rfl⟩ : ∃ r t, flux_errs = r :: t := by
    cases hfe : flux_errs with
    | nil => rw [hfe] at herlen; simp at herlen
    | cons r t => exact ⟨r, t, rfl⟩
  obtain ⟨iv0, ivrest, rfl⟩ : ∃ r t, ivars = r :: t := by
    cases hiv : ivars with
    | nil => rw [hiv] at hivlen; simp at hivlen
    | cons r t => exact ⟨r, t, rfl⟩
  have hflux0 : flux0.length = lambdas.length := hrows _ (List.mem_cons_self _ _)
  have hfe0 : fe0.length = lambdas.length := herows _ (List.mem_cons_self _ _)
  have hiv0 : iv0.length = lambdas.length := hirows _ (List.mem_cons_self _ _)
  simp only [continuum_normalize_Chebyshev, List.headD_cons] at hok
  cases hps : processSegments fit lambdas flux0 fe0 iv0 deg ranges
      (List.replicate lambdas.length (F.fin 0), List.replicate flux0.length (F.fin 0),
        List.replicate iv0.length (F.fin 0)) with
  | error e => rw [hps] at hok; simp at hok
  | ok out =>
    obtain ⟨cont0, nfRow, niRow⟩ := out
    rw [hps] at hok
    obtain ⟨hc2, hf2, hi2⟩ := processSegments_ok_lengths fit hfit lambdas flux0 fe0 iv0
      deg hflux0 hfe0 ranges _ _ _ _ _ _ hranges (by simp) (by simp [hflux0])
      (by simp [hiv0]) hps
    injection hok with h1
    injection h1 with h2
    injection h2 with ha h23
    injection h23 with hb hc
    subst ha
    subst hb
    subst hc
    constructor
    · simp
    · intro s row hrow p hp
      have hplt : p < lambdas.length := by
        rw [← hcm]
        exact (List.getElem?_eq_some.mp hp).1
      cases s with
      | zero =>
        simp only [List.getElem?_cons_zero] at hrow
        injection hrow with hrow
        rw [← hrow, zeroContPix, List.getElem?_zipWith, hp,
          List.getElem?_eq_getElem (by rw [hi2]; exact hplt)]
        rfl
      | succ s2 =>
        rw [List.getElem?_cons_succ, List.map_cons, List.drop_one, List.tail_cons,
          List.getElem?_map] at hrow
        cases hivq : ivrest[s2]? with
        | none => rw [hivq] at hrow; simp at hrow
        | some irow =>
          rw [hivq] at hrow
          injection hrow with hrow
          have hirowlen : irow.length = lambdas.length := by
            obtain ⟨hlt2, hget⟩ := List.getElem?_eq_some.mp hivq
            exact hirows _ (List.mem_cons_of_mem _ (hget ▸ List.getElem_mem hlt2))
          rw [← hrow, List.getElem?_replicate, if_pos (by rw [hirowlen]; exact hplt)]

/-- The slice read at offset `k` is the source at `start + k`. -/
theorem sliceL_getElem (l : List F) (start stop k : ℕ) (hk : k < stop - start) :
    (sliceL l start stop)[k]? = l[start + k]? := by
  rw [sliceL, List.getElem?_take, if_pos hk, List.getElem?_drop]

/-- C10: every wavelength position covered by no `(start, stop)` range keeps
its zero initialization in the returned normalized flux, normalized inverse
variance and continuum, for every star: the segment loop never writes the
gaps, rows after the first are never touched at all because of the early
return, and the continuum-mask zeroing writes 0 over 0. -/
theorem gaps_stay_zero (fit : FitFn)
    (hfit : ∀ x y w d, (fit x y w d).length = x.length)
    (lambdas : List F) (fluxes flux_errs ivars : List (List F))
    (contmask : List Bool) (ranges : List (ℕ × ℕ)) (deg : ℕ)
    (hranges : ∀ r ∈ ranges, r.2 ≤ lambdas.length)
    (hrows : ∀ row ∈ fluxes, row.length = lambdas.length)
    (herows : ∀ row ∈ flux_errs, row.length = lambdas.length)
    (hirows : ∀ row ∈ ivars, row.length = lambdas.length)
    (hcm : contmask.length = lambdas.length)
    (herlen : flux_errs.length = fluxes.length)
    (hivlen : ivars.length = fluxes.length)
    (nf ni : List (List F)) (cont : List F)
    (hok : continuum_normalize_Chebyshev fit lambdas fluxes flux_errs ivars
      contmask ranges deg = some (Except.ok (nf, ni, cont))) :
    ∀ (p : ℕ), p < lambdas.length → (∀ r ∈ ranges, p < r.1 ∨ r.2 ≤ p) →
      cont[p]? = some (F.fin 0) ∧
      (∀ (s : ℕ) (row : List F), nf[s]? = some row → row[p]? = some (F.fin 0)) ∧
      (∀ (s : ℕ) (row : List F), ni[s]? = some row → row[p]? = some (F.fin 0)) := by
  obtain ⟨flux0, frest, rfl⟩ : ∃ r t, fluxes = r :: t := by
    cases hfl : fluxes with
    | nil => rw [hfl] at hok; simp [continuum_normalize_Chebyshev] at hok
    | cons r t => exact ⟨r, t, rfl⟩
  obtain ⟨fe0, ferest, rfl⟩ : ∃ r t, flux_errs = r :: t := by
    cases hfe : flux_errs with
    | nil => rw [hfe] at herlen; simp at herlen
    | cons r t => exact ⟨r, t, rfl⟩
  obtain ⟨iv0, ivrest, rfl⟩ : ∃ r t, ivars = r :: t := by
    cases hiv : ivars with
    | nil => rw [hiv] at hivlen; simp at hivlen
    | cons r t => exact ⟨r, t, rfl⟩
  have hflux0 : flux0.length = lambdas.length := hrows _ (List.mem_cons_self _ _)
  have hfe0 : fe0.length = lambdas.length := herows _ (List.mem_cons_self _ _)
  have hiv0 : iv0.length = lambdas.length := hirows _ (List.mem_cons_self _ _)
  simp only [continuum_normalize_Chebyshev, List.headD_cons] at hok
  cases hps : processSegments fit lambdas flux0 fe0 iv0 deg ranges
      (List.replicate lambdas.length (F.fin 0), List.replicate flux0.length (F.fin 0),
        List.replicate iv0.length (F.fin 0)) with
  | error e => rw [hps] at hok; simp at hok
  | ok out =>
    obtain ⟨cont0, nfRow, niRow⟩ := out
    rw [hps] at hok
    injection hok with h1
    injection h1 with h2
    injection h2 with ha h23
    injection h23 with hb hc
    subst ha
    subst hb
    subst hc
    intro p hplt hout
    obtain ⟨hcq, hfq, hiq⟩ := processSegments_ok_outside fit hfit lambdas flux0 fe0 iv0
      deg hflux0 hfe0 ranges _ _ _ _ _ _ p hranges (by simp) (by simp [hflux0])
      (by simp [hiv0]) hps hout
    have hrepl : (List.replicate lambdas.length (F.fin 0))[p]? = some (F.fin 0) := by
      rw [List.getElem?_replicate, if_pos hplt]
    refine ⟨by rw [hcq, hrepl], ?_, ?_⟩
    · intro s row hrow
      cases s with
      | zero =>
        simp only [List.getElem?_cons_zero] at hrow
        injection hrow with hrow
        rw [← hrow, hfq, List.getElem?_replicate, if_pos (by rw [hflux0]; exact hplt)]
      | succ s2 =>
        rw [List.getElem?_cons_succ, List.map_cons, List.drop_one, List.tail_cons,
          List.getElem?_map] at hrow
        cases hfq2 : frest[s2]? with
        | none => rw [hfq2] at hrow; simp at hrow
        | some row2 =>
          rw [hfq2] at hrow
          injection hrow with hrow
          have hlen2 : row2.length = lambdas.length := by
            obtain ⟨hlt2, hget⟩ := List.getElem?_eq_some.mp hfq2
            exact hrows _ (List.mem_cons_of_mem _ (hget ▸ List.getElem_mem hlt2))
          rw [← hrow, List.getElem?_replicate, if_pos (by rw [hlen2]; exact hplt)]
    · intro s row hrow
      cases s with
      | zero =>
        simp only [List.getElem?_cons_zero] at hrow
        injection hrow with hrow
        have hnip : niRow[p]? = some (F.fin 0) := by
          rw [hiq, List.getElem?_replicate, if_pos (by rw [hiv0]; exact hplt)]
        obtain ⟨mb, hmb⟩ : ∃ b, contmask[p]? = some b :=
          ⟨_, List.getElem?_eq_getElem (by rw [hcm]; exact hplt)⟩
        rw [← hrow, zeroContPix, List.getElem?_zipWith, hmb, hnip]
        cases mb <;> rfl
      | succ s2 =>
        rw [List.getElem?_cons_succ, List.map_cons, List.drop_one, List.tail_cons,
          List.getElem?_map] at hrow
        cases hivq : ivrest[s2]? with
        | none => rw [hivq] at hrow; simp at hrow
        | some irow =>
          rw [hivq] at hrow
          injection hrow with hrow
          have hlen2 : irow.length = lambdas.length := by
            obtain ⟨hlt2, hget⟩ := List.getElem?_eq_some.mp hivq
            exact hirows _ (List.mem_cons_of_mem _ (hget ▸ List.getElem_mem hlt2))
          rw [← hrow, List.getElem?_replicate, if_pos (by rw [hlen2]; exact hplt)]

/-- A successful segment computation is exactly the continuum evaluation
together with the mask-filled normalized flux and inverse variance. -/
theorem segmentNorm_ok_elim (fit : FitFn) (lambdas flux flux_err ivar : List F)
    (start stop deg : ℕ) (cseg fseg iseg : List F)
    (hok : segmentNorm fit lambdas flux flux_err ivar start stop deg =
      Except.ok (cseg, fseg, iseg)) :
    ∃ flooredIvar,
      normIvarFloor (normIvarRawOf fit lambdas flux flux_err ivar start stop deg) =
        Except.ok flooredIvar ∧
      cseg = contOf fit lambdas flux ivar start stop deg ∧
      fseg = fillFlux (badpixOf fit lambdas flux flux_err ivar start stop deg)
        (normFluxOf fit lambdas flux ivar start stop deg) ∧
      iseg = fillIvar (badpixOf fit lambdas flux flux_err ivar start stop deg)
        flooredIvar := by
  rw [segmentNorm] at hok
  cases hfl : normIvarFloor (normIvarRawOf fit lambdas flux flux_err ivar start stop deg) with
  | error e => rw [hfl] at hok; simp at hok
  | ok fl =>
    rw [hfl] at hok
    injection hok with h
    injection h with h1 h23
    injection h23 with h2 h3
    exact ⟨fl, rfl, h1.symm, h2.symm, h3.symm⟩

/-- C5: in each processed segment of the processed star, at every pixel
flagged by the bad-pixel mask recomputed on the normalized flux/error the
returned normalized flux is the sentinel `1.0` and the returned normalized
inverse variance is `0.0`; at every unflagged pixel the returned normalized
flux equals the raw flux divided by the evaluated continuum at that pixel.
The characterization is pointwise, so a fill at one pixel leaves every
other pixel untouched. -/
theorem segment_fill_spec (fit : FitFn)
    (hfit : ∀ x y w d, (fit x y w d).length = x.length)
    (lambdas : List F) (fluxes flux_errs ivars : List (List F))
    (contmask : List Bool) (ranges : List (ℕ × ℕ)) (deg : ℕ)
    (hranges : ∀ r ∈ ranges, r.2 ≤ lambdas.length)
    (hdisj : List.Pairwise (fun r1 r2 => r1.2 ≤ r2.1) ranges)
    (hrows : ∀ row ∈ fluxes, row.length = lambdas.length)
    (herows : ∀ row ∈ flux_errs, row.length = lambdas.length)
    (hirows : ∀ row ∈ ivars, row.length = lambdas.length)
    (hcm : contmask.length = lambdas.length)
    (herlen : flux_errs.length = fluxes.length)
    (hivlen : ivars.length = fluxes.length)
    (nf ni : List (List F)) (cont : List F)
    (hok : continuum_normalize_Chebyshev fit lambdas fluxes flux_errs ivars
      contmask ranges deg = some (Except.ok (nf, ni, cont))) :
    ∀ start stop, (start, stop) ∈ ranges → ∀ k, k < stop - start →
      ∀ (nfRow niRow : List F), nf[0]? = some nfRow → ni[0]? = some niRow →
      ∀ b, (badpixOf fit lambdas (fluxes.headD []) (flux_errs.headD [])
          (ivars.headD []) start stop deg)[k]? = some b →
      (b = true → nfRow[start + k]? = some (F.fin 1) ∧
        niRow[start + k]? = some (F.fin 0)) ∧
      (b = false → ∀ fl c, (fluxes.headD [])[start + k]? = some fl →
        (contOf fit lambdas (fluxes.headD []) (ivars.headD [])
          start stop deg)[k]? = some c →
        nfRow[start + k]? = some (fl.div c)) := by
  obtain ⟨flux0, frest, rfl⟩ : ∃ r t, fluxes = r :: t := by
    cases hfl : fluxes with
    | nil => rw [hfl] at hok; simp [continuum_normalize_Chebyshev] at hok
    | cons r t => exact ⟨r, t, rfl⟩
  obtain ⟨fe0, ferest, rfl⟩ : ∃ r t, flux_errs = r :: t := by
    cases hfe : flux_errs with
    | nil => rw [hfe] at herlen; simp at herlen
    | cons r t => exact ⟨r, t, rfl⟩
  obtain ⟨iv0, ivrest, rfl⟩ : ∃ r t, ivars = r :: t := by
    cases hiv : ivars with
    | nil => rw [hiv] at hivlen; simp at hivlen
    | cons r t => exact ⟨r, t, rfl⟩
  have hflux0 : flux0.length = lambdas.length := hrows _ (List.mem_cons_self _ _)
  have hfe0 : fe0.length = lambdas.length := herows _ (List.mem_cons_self _ _)
  have hiv0 : iv0.length = lambdas.length := hirows _ (List.mem_cons_self _ _)
  simp only [continuum_normalize_Chebyshev, List.headD_cons] at hok ⊢
  cases hps : processSegments fit lambdas flux0 fe0 iv0 deg ranges
      (List.replicate lambdas.length (F.fin 0), List.replicate flux0.length (F.fin 0),
        List.replicate iv0.length (F.fin 0)) with
  | error e => rw [hps] at hok; simp at hok
  | ok out =>
    obtain ⟨cont0, nfRow0, niRow0⟩ := out
    rw [hps] at hok
    injection hok with h1
    injection h1 with h2
    injection h2 with ha h23
    injection h23 with hb hc
    subst ha
    subst hb
    subst hc
    intro start stop hmem k hk nfRow niRow hnf hni b hbp
    simp only [List.getElem?_cons_zero] at hnf hni
    injection hnf with hnf
    injection hni with hni
    subst hnf
    subst hni
    obtain ⟨cseg, fseg, iseg, hseg, hcq, hfq, hiq⟩ := processSegments_ok_covered fit hfit
      lambdas flux0 fe0 iv0 deg hflux0 hfe0 ranges _ _ _ _ _ _ start stop k
      hranges hdisj (by simp) (by simp [hflux0]) (by simp [hiv0]) hps hmem hk
    obtain ⟨fl2, hfl2, hcs, hfs, his⟩ := segmentNorm_ok_elim fit lambdas flux0 fe0 iv0
      start stop deg cseg fseg iseg hseg
    have hstop : stop ≤ lambdas.length := hranges _ hmem
    have hnfl : (normFluxOf fit lambdas flux0 iv0 start stop deg).length =
        stop - start := by
      rw [normFluxOf, List.length_zipWith, contOf, hfit,
        sliceL_length _ _ _ hstop, sliceL_length _ _ _ (by omega)]
      omega
    have hfll : fl2.length = stop - start := by
      rw [normIvarFloor_ok_length _ _ hfl2, normIvarRawOf, List.length_map,
        normFluxErrOf, List.length_zipWith, contOf, hfit,
        sliceL_length _ _ _ hstop, sliceL_length _ _ _ (by omega)]
      omega
    constructor
    · intro hb
      subst hb
      constructor
      · rw [hfq, hfs, fillFlux, List.getElem?_zipWith, hbp,
          List.getElem?_eq_getElem (by rw [hnfl]; exact hk)]
        rfl
      · have hip : niRow0[start + k]? = some (F.fin 0) := by
          rw [hiq, his, fillIvar, List.getElem?_zipWith, hbp,
            List.getElem?_eq_getElem (by rw [hfll]; exact hk)]
          rfl
        obtain ⟨hpos, hl1, hl2, hl3⟩ := segmentNorm_ok_lengths fit hfit lambdas flux0 fe0
          iv0 start stop deg hstop hflux0 hfe0 cseg fseg iseg hseg
        obtain ⟨mb, hmb⟩ : ∃ b2, contmask[start + k]? = some b2 :=
          ⟨_, List.getElem?_eq_getElem (by rw [hcm]; omega)⟩
        rw [zeroContPix, List.getElem?_zipWith, hmb, hip]
        cases mb <;> rfl
    · intro hb fl c hflux hcont
      subst hb
      have hnfk : (normFluxOf fit lambdas flux0 iv0 start stop deg)[k]? =
          some (fl.div c) := by
        rw [normFluxOf, List.getElem?_zipWith, sliceL_getElem _ _ _ _ hk, hflux,
          contOf] at *
        rw [hcont]
      rw [hfq, hfs, fillFlux, List.getElem?_zipWith, hbp, hnfk]
      rfl

/-- A stand-in fit that evaluates, at each segment wavelength, to the
segment flux at that position (an exactly interpolating fit); used to build
inputs where the stars' continua differ. -/
def idFit : FitFn := fun x y _ _ =>
  (List.range x.length).map (fun i => (y[i]?).getD (F.fin 0))

/-- A stand-in fit that evaluates to the zero polynomial; it drives every
normalized inverse variance of a segment out of the finite-positive set. -/
def zeroFit : FitFn := fun x _ _ _ => x.map (fun _ => F.fin 0)

/-- C8 (amended): the function returns a single continuum array over the
wavelength axis — not one per star.  On every covered position it holds the
per-segment fit evaluation of the first star, the only one processed; no
other star's continuum curve is produced anywhere in the output. -/
theorem continua_single_curve (fit : FitFn)
    (hfit : ∀ x y w d, (fit x y w d).length = x.length)
    (lambdas : List F) (fluxes flux_errs ivars : List (List F))
    (contmask : List Bool) (ranges : List (ℕ × ℕ)) (deg : ℕ)
    (hranges : ∀ r ∈ ranges, r.2 ≤ lambdas.length)
    (hdisj : List.Pairwise (fun r1 r2 => r1.2 ≤ r2.1) ranges)
    (hrows : ∀ row ∈ fluxes, row.length = lambdas.length)
    (herows : ∀ row ∈ flux_errs, row.length = lambdas.length)
    (hirows : ∀ row ∈ ivars, row.length = lambdas.length)
    (herlen : flux_errs.length = fluxes.length)
    (hivlen : ivars.length = fluxes.length)
    (nf ni : List (List F)) (cont : List F)
    (hok : continuum_normalize_Chebyshev fit lambdas fluxes flux_errs ivars
      contmask ranges deg = some (Except.ok (nf, ni, cont))) :
    cont.length = lambdas.length ∧
    ∀ start stop, (start, stop) ∈ ranges → ∀ k, k < stop - start →
      cont[start + k]? =
        (contOf fit lambdas (fluxes.headD []) (ivars.headD []) start stop deg)[k]? := by
  obtain ⟨flux0, frest, rfl⟩ : ∃ r t, fluxes = r :: t := by
    cases hfl : fluxes with
    | nil => rw [hfl] at hok; simp [continuum_normalize_Chebyshev] at hok
    | cons r t => exact ⟨r, t, rfl⟩
  obtain ⟨fe0, ferest, rfl⟩ : ∃ r t, flux_errs = r :: t := by
    cases hfe : flux_errs with
    | nil => rw [hfe] at herlen; simp at herlen
    | cons r t => exact ⟨r, t, rfl⟩
  obtain ⟨iv0, ivrest, rfl⟩ : ∃ r t, ivars = r :: t := by
    cases hiv : ivars with
    | nil => rw [hiv] at hivlen; simp at hivlen
    | cons r t => exact ⟨r, t, rfl⟩
  have hflux0 : flux0.length = lambdas.length := hrows _ (List.mem_cons_self _ _)
  have hfe0 : fe0.length = lambdas.length := herows _ (List.mem_cons_self _ _)
  have hiv0 : iv0.length = lambdas.length := hirows _ (List.mem_cons_self _ _)
  simp only [continuum_normalize_Chebyshev, List.headD_cons] at hok ⊢
  cases hps : processSegments fit lambdas flux0 fe0 iv0 deg ranges
      (List.replicate lambdas.length (F.fin 0), List.replicate flux0.length (F.fin 0),
        List.replicate iv0.length (F.fin 0)) with
  | error e => rw [hps] at hok; simp at hok
  | ok out =>
    obtain ⟨cont0, nfRow0, niRow0⟩ := out
    rw [hps] at hok
    injection hok with h1
    injection h1 with h2
    injection h2 with ha h23
    injection h23 with hb hc
    subst ha
    subst hb
    subst hc
    obtain ⟨hc2, hf2, hi2⟩ := processSegments_ok_lengths fit hfit lambdas flux0 fe0 iv0
      deg hflux0 hfe0 ranges _ _ _ _ _ _ hranges (by simp) (by simp [hflux0])
      (by simp [hiv0]) hps
    refine ⟨hc2, ?_⟩
    intro start stop hmem k hk
    obtain ⟨cseg, fseg, iseg, hseg, hcq, hfq, hiq⟩ := processSegments_ok_covered fit hfit
      lambdas flux0 fe0 iv0 deg hflux0 hfe0 ranges _ _ _ _ _ _ start stop k
      hranges hdisj (by simp) (by simp [hflux0]) (by simp [hiv0]) hps hmem hk
    obtain ⟨fl2, hfl2, hcs, hfs, his⟩ := segmentNorm_ok_elim fit lambdas flux0 fe0 iv0
      start stop deg cseg fseg iseg hseg
    rw [hcq, hcs]

/-- C8 counterexample: two stars with different fluxes under an
interpolating stand-in fit.  The returned continuum is a single 1-d array
holding star 0's segment evaluation `[2, 2]`, while star 1's own segment
evaluation is `[3, 3]`: no distinct per-star curve for star 1 is exposed
anywhere in the output. -/
theorem continua_not_per_star :
    continuum_normalize_Chebyshev idFit [F.fin 0, F.fin 1]
        [[F.fin 2, F.fin 2], [F.fin 3, F.fin 3]]
        [[F.fin 1, F.fin 1], [F.fin 1, F.fin 1]]
        [[F.fin 1, F.fin 1], [F.fin 1, F.fin 1]]
        [false, false] [(0, 2)] 3 =
      some (Except.ok ([[F.fin 1, F.fin 1], [F.fin 0, F.fin 0]],
        [[F.fin 4, F.fin 4], [F.fin 0, F.fin 0]], [F.fin 2, F.fin 2])) ∧
    contOf idFit [F.fin 0, F.fin 1] [F.fin 3, F.fin 3] [F.fin 1, F.fin 1] 0 2 3 =
      [F.fin 3, F.fin 3] ∧
    ([F.fin 2, F.fin 2] : List F) ≠ [F.fin 3, F.fin 3] := by
  refine ⟨?_, ?_, by decide⟩
  · norm_num [continuum_normalize_Chebyshev, processSegments, segmentNorm, normIvarFloor,
      npmin, goodIvar, normIvarRawOf, normFluxErrOf, normFluxOf, contOf, badpixOf,
      get_pixmask, fillFlux, fillIvar, zeroContPix, sliceL, writeRange, idFit,
      F.div, F.mul, F.le, F.lt, F.beq, F.isFinite, List.range_succ, List.replicate_succ]
  · norm_num [contOf, sliceL, idFit, List.range_succ]

/-- Witness for C8 (amended) at the same two-star input. -/
theorem continua_single_curve_witness :
    ([F.fin 2, F.fin 2] : List F).length = ([F.fin 0, F.fin 1] : List F).length ∧
    ∀ start stop, (start, stop) ∈ [(0, 2)] → ∀ k, k < stop - start →
      ([F.fin 2, F.fin 2] : List F)[start + k]? =
        (contOf idFit [F.fin 0, F.fin 1]
          (([[F.fin 2, F.fin 2], [F.fin 3, F.fin 3]] : List (List F)).headD [])
          (([[F.fin 1, F.fin 1], [F.fin 1, F.fin 1]] : List (List F)).headD [])
          start stop 3)[k]? :=
  continua_single_curve idFit (fun x y w d => by simp [idFit])
    [F.fin 0, F.fin 1] [[F.fin 2, F.fin 2], [F.fin 3, F.fin 3]]
    [[F.fin 1, F.fin 1], [F.fin 1, F.fin 1]] [[F.fin 1, F.fin 1], [F.fin 1, F.fin 1]]
    [false, false] [(0, 2)] 3
    (by decide) (by decide) (by decide) (by decide) (by decide) (by decide) (by decide)
    [[F.fin 1, F.fin 1], [F.fin 0, F.fin 0]]
    [[F.fin 4, F.fin 4], [F.fin 0, F.fin 0]] [F.fin 2, F.fin 2]
    (by norm_num [continuum_normalize_Chebyshev, processSegments, segmentNorm,
      normIvarFloor, npmin, goodIvar, normIvarRawOf, normFluxErrOf, normFluxOf, contOf,
      badpixOf, get_pixmask, fillFlux, fillIvar, zeroContPix, sliceL, writeRange, idFit,
      F.div, F.mul, F.le, F.lt, F.beq, F.isFinite, List.range_succ, List.replicate_succ])

/-- C7 counterexample: under a stand-in fit that evaluates to 0, star 0's
segment has no finite positive normalized inverse variance, the empty-array
minimum of line 138 raises, and the entire call fails: star 1's normalized
outputs are NOT produced, so the per-star failure is not isolated. -/
theorem failure_not_isolated :
    continuum_normalize_Chebyshev zeroFit [F.fin 0, F.fin 1]
        [[F.fin 2, F.fin 2], [F.fin 3, F.fin 3]]
        [[F.fin 1, F.fin 1], [F.fin 1, F.fin 1]]
        [[F.fin 1, F.fin 1], [F.fin 1, F.fin 1]]
        [false, false] [(0, 2)] 3 =
      some (Except.error
        "zero-size array to reduction operation minimum which has no identity") := by
  norm_num [continuum_normalize_Chebyshev, processSegments, segmentNorm, normIvarFloor,
    npmin, goodIvar, normIvarRawOf, normFluxErrOf, normFluxOf, contOf, badpixOf,
    get_pixmask, fillFlux, fillIvar, zeroContPix, sliceL, writeRange, zeroFit,
    F.div, F.mul, F.le, F.lt, F.beq, F.isFinite, List.range_succ, List.replicate_succ]

/-- C7 (amended): a failure while fitting the processed star's segments
aborts the entire call — the exception propagates to the caller and no
star's normalized outputs are returned; there is no per-star isolation or
collection of failures. -/
theorem failure_propagates (fit : FitFn) (lambdas : List F)
    (fluxes flux_errs ivars : List (List F)) (contmask : List Bool)
    (ranges : List (ℕ × ℕ)) (deg : ℕ) (flux0 : List F) (frest : List (List F))
    (hflux : fluxes = flux0 :: frest) (e : String)
    (herr : processSegments fit lambdas flux0 (flux_errs.headD [])
      (ivars.headD []) deg ranges
      (List.replicate lambdas.length (F.fin 0), List.replicate flux0.length (F.fin 0),
        List.replicate (ivars.headD []).length (F.fin 0)) = Except.error e) :
    continuum_normalize_Chebyshev fit lambdas fluxes flux_errs ivars contmask
      ranges deg = some (Except.error e) := by
  subst hflux
  simp only [continuum_normalize_Chebyshev]
  rw [herr]

/-- Witness for C7 (amended): the zero-fit failure at a slightly different
two-star input. -/
theorem failure_propagates_witness :
    continuum_normalize_Chebyshev zeroFit [F.fin 0, F.fin 1]
        [[F.fin 2, F.fin 2], [F.fin 4, F.fin 4]]
        [[F.fin 1, F.fin 1], [F.fin 1, F.fin 1]]
        [[F.fin 1, F.fin 1], [F.fin 1, F.fin 1]]
        [false, false] [(0, 2)] 3 =
      some (Except.error
        "zero-size array to reduction operation minimum which has no identity") :=
  failure_propagates zeroFit [F.fin 0, F.fin 1]
    [[F.fin 2, F.fin 2], [F.fin 4, F.fin 4]]
    [[F.fin 1, F.fin 1], [F.fin 1, F.fin 1]]
    [[F.fin 1, F.fin 1], [F.fin 1, F.fin 1]]
    [false, false] [(0, 2)] 3 [F.fin 2, F.fin 2] [[F.fin 4, F.fin 4]] rfl _
    (by norm_num [processSegments, segmentNorm, normIvarFloor,
      npmin, goodIvar, normIvarRawOf, normFluxErrOf, normFluxOf, contOf, badpixOf,
      get_pixmask, fillFlux, fillIvar, sliceL, writeRange, zeroFit,
      F.div, F.mul, F.le, F.lt, F.beq, F.isFinite, List.range_succ, List.replicate_succ])

/-- C1 (the premature-return defect evaluated on a clean ensemble): with two
well-formed stars the call returns after processing star 0 only, leaving
star 1's normalized flux and inverse-variance rows at their all-zero
initialization even though star 1's inputs are clean — the docstring
promises normalized outputs for all objects. -/
theorem early_return_second_star_untouched :
    continuum_normalize_Chebyshev constOneFit [F.fin 0, F.fin 1]
        [[F.fin 2, F.fin 2], [F.fin 3, F.fin 3]]
        [[F.fin 1, F.fin 1], [F.fin 1, F.fin 1]]
        [[F.fin 1, F.fin 1], [F.fin 1, F.fin 1]]
        [false, false] [(0, 2)] 3 =
      some (Except.ok ([[F.fin 2, F.fin 2], [F.fin 0, F.fin 0]],
        [[F.fin 1, F.fin 1], [F.fin 0, F.fin 0]], [F.fin 1, F.fin 1])) := by
  norm_num [continuum_normalize_Chebyshev, processSegments, segmentNorm, normIvarFloor,
    npmin, goodIvar, normIvarRawOf, normFluxErrOf, normFluxOf, contOf, badpixOf,
    get_pixmask, fillFlux, fillIvar, zeroContPix, sliceL, writeRange, constOneFit,
    F.div, F.mul, F.le, F.lt, F.beq, F.isFinite, List.range_succ, List.replicate_succ]

/-- Witness for C6: two stars, continuum mask true at pixel 0; both output
rows of the normalized inverse-variance matrix are 0 there. -/
theorem contmask_ivar_zero_witness :
    ([[F.fin 0, F.fin 1], [F.fin 0, F.fin 0]] : List (List F)).length =
      ([[F.fin 1, F.fin 1], [F.fin 1, F.fin 1]] : List (List F)).length ∧
    ∀ (s : ℕ) (row : List F),
      ([[F.fin 0, F.fin 1], [F.fin 0, F.fin 0]] : List (List F))[s]? = some row →
      ∀ (p : ℕ), ([true, false] : List Bool)[p]? = some true →
        row[p]? = some (F.fin 0) :=
  contmask_ivar_zero constOneFit (fun x y w d => by simp [constOneFit])
    [F.fin 0, F.fin 1] [[F.fin 2, F.fin 2], [F.fin 3, F.fin 3]]
    [[F.fin 1, F.fin 1], [F.fin 1, F.fin 1]] [[F.fin 1, F.fin 1], [F.fin 1, F.fin 1]]
    [true, false] [(0, 2)] 3
    (by decide) (by decide) (by decide) (by decide) (by decide) (by decide) (by decide)
    [[F.fin 2, F.fin 2], [F.fin 0, F.fin 0]] [[F.fin 0, F.fin 1], [F.fin 0, F.fin 0]]
    [F.fin 1, F.fin 1]
    (by norm_num [continuum_normalize_Chebyshev, processSegments, segmentNorm,
      normIvarFloor, npmin, goodIvar, normIvarRawOf, normFluxErrOf, normFluxOf, contOf,
      badpixOf, get_pixmask, fillFlux, fillIvar, zeroContPix, sliceL, writeRange,
      constOneFit, F.div, F.mul, F.le, F.lt, F.beq, F.isFinite, List.range_succ,
      List.replicate_succ])

/-- Witness for C5: star 0 has a zero-flux (hence flagged) pixel 1; the
claim instantiated at segment (0,2), offset 1, star 0's output rows. -/
theorem segment_fill_spec_witness :
    (true = true → ([F.fin 2, F.fin 1] : List F)[0 + 1]? = some (F.fin 1) ∧
      ([F.fin 1, F.fin 0] : List F)[0 + 1]? = some (F.fin 0)) ∧
    (true = false → ∀ fl c,
      (([[F.fin 2, F.fin 0], [F.fin 3, F.fin 3]] : List (List F)).headD
        [])[0 + 1]? = some fl →
      (contOf constOneFit [F.fin 0, F.fin 1]
        (([[F.fin 2, F.fin 0], [F.fin 3, F.fin 3]] : List (List F)).headD [])
        (([[F.fin 1, F.fin 1], [F.fin 1, F.fin 1]] : List (List F)).headD [])
        0 2 3)[1]? = some c →
      ([F.fin 2, F.fin 1] : List F)[0 + 1]? = some (fl.div c)) :=
  segment_fill_spec constOneFit (fun x y w d => by simp [constOneFit])
    [F.fin 0, F.fin 1] [[F.fin 2, F.fin 0], [F.fin 3, F.fin 3]]
    [[F.fin 1, F.fin 1], [F.fin 1, F.fin 1]] [[F.fin 1, F.fin 1], [F.fin 1, F.fin 1]]
    [false, false] [(0, 2)] 3
    (by decide) (by simp) (by decide) (by decide) (by decide) (by decide) (by decide)
    (by decide)
    [[F.fin 2, F.fin 1], [F.fin 0, F.fin 0]] [[F.fin 1, F.fin 0], [F.fin 0, F.fin 0]]
    [F.fin 1, F.fin 1]
    (by norm_num [continuum_normalize_Chebyshev, processSegments, segmentNorm,
      normIvarFloor, npmin, goodIvar, normIvarRawOf, normFluxErrOf, normFluxOf, contOf,
      badpixOf, get_pixmask, fillFlux, fillIvar, zeroContPix, sliceL, writeRange,
      constOneFit, F.div, F.mul, F.le, F.lt, F.beq, F.isFinite, List.range_succ,
      List.replicate_succ])
    0 2 (by decide) 1 (by decide) [F.fin 2, F.fin 1] [F.fin 1, F.fin 0]
    (by decide) (by decide) true
    (by norm_num [badpixOf, get_pixmask, normFluxOf, normFluxErrOf, contOf, sliceL,
      constOneFit, F.div, F.mul, F.le, F.lt, F.beq, F.isFinite, List.range_succ])

/-- Witness for C10: a single segment `[1, 2)` on a two-pixel axis leaves
position 0 — covered by no range — at zero in all outputs for both stars. -/
theorem gaps_stay_zero_witness :
    ([F.fin 0, F.fin 1] : List F)[0]? = some (F.fin 0) ∧
    (∀ (s : ℕ) (row : List F),
      ([[F.fin 0, F.fin 2], [F.fin 0, F.fin 0]] : List (List F))[s]? = some row →
      row[0]? = some (F.fin 0)) ∧
    (∀ (s : ℕ) (row : List F),
      ([[F.fin 0, F.fin 1], [F.fin 0, F.fin 0]] : List (List F))[s]? = some row →
      row[0]? = some (F.fin 0)) :=
  gaps_stay_zero constOneFit (fun x y w d => by simp [constOneFit])
    [F.fin 0, F.fin 1] [[F.fin 2, F.fin 2], [F.fin 3, F.fin 3]]
    [[F.fin 1, F.fin 1], [F.fin 1, F.fin 1]] [[F.fin 1, F.fin 1], [F.fin 1, F.fin 1]]
    [false, false] [(1, 2)] 3
    (by decide) (by decide) (by decide) (by decide) (by decide) (by decide) (by decide)
    [[F.fin 0, F.fin 2], [F.fin 0, F.fin 0]] [[F.fin 0, F.fin 1], [F.fin 0, F.fin 0]]
    [F.fin 0, F.fin 1]
    (by norm_num [continuum_normalize_Chebyshev, processSegments, segmentNorm,
      normIvarFloor, npmin, goodIvar, normIvarRawOf, normFluxErrOf, normFluxOf, contOf,
      badpixOf, get_pixmask, fillFlux, fillIvar, zeroContPix, sliceL, writeRange,
      constOneFit, F.div, F.mul, F.le, F.lt, F.beq, F.isFinite, List.range_succ,
      List.replicate_succ])
    0 (by decide) (by decide)
